import Mathlib

/-!
Verification of the routy request router (route tree builder, matcher and
middleware composer) against its natural-language specification.

The definitions below are a shallow embedding of the TypeScript sources:
* the route tree (`RouteNode`, `buildRouteTree` = `insertRoute`, `findRoute` =
  `findRouteE`) follows the per-method-handler-map implementation
  (`RouteNode.handlers : Map<Method, RequestHandler>`);
* the middleware composition (`composeMw`, `routeTrace`) follows
  `Router.#register` / `Router.route` / `Router.middleware`.

Handlers are opaque in the source (functions); they are modelled by `Nat`
identifiers.  A JavaScript `Map` is modelled by an association list with
JS `Map.set` semantics (update in place if present, else append), and a JS
object used as a string-keyed record is modelled the same way, which matches
JS object key insertion order and spread-merge semantics.

`RootNode.matchParts` throws in the source; a thrown exception is modelled by
the outer `none` of an `Option`-wrapped result (`matchPartsE`, `findRouteE`).
-/

/-- HTTP methods, as the `Method` union type of `router.ts`. -/
inductive Method where
  | get | post | put | delete | patch | head | connect | options | trace
  deriving DecidableEq, Repr

/-- Parameter modifiers, as the `ParamModifier` union type. -/
inductive Modifier where
  | singular | optional | many | any
  deriving DecidableEq, Repr

/-- The closed set of node variants: `RootNode`, `LiteralNode`, `ParamNode`. -/
inductive NodeKind where
  | root
  | literal (lit : String)
  | param (name : String) (modifier : Modifier)
  deriving DecidableEq, Repr

/-- A node of the route tree (`RouteNode` and its three subclasses): the raw
segment text, the variant data, the per-method handler map, and the ordered
children list. -/
inductive RouteNode where
  | mk (raw : String) (kind : NodeKind) (handlers : List (Method × Nat))
      (children : List RouteNode)

/-- The `raw` field. -/
def RouteNode.raw : RouteNode → String
  | .mk r _ _ _ => r

/-- The variant of the node. -/
def RouteNode.kind : RouteNode → NodeKind
  | .mk _ k _ _ => k

/-- The `handlers` map. -/
def RouteNode.handlers : RouteNode → List (Method × Nat)
  | .mk _ _ h _ => h

/-- The `children` list. -/
def RouteNode.children : RouteNode → List RouteNode
  | .mk _ _ _ c => c

/-- Replace the children list, keeping everything else. -/
def RouteNode.withChildren : RouteNode → List RouteNode → RouteNode
  | .mk r k h _, c => .mk r k h c

/-- `Map.get` on the handler map: the value of the first matching key. -/
def mapGet (m : List (Method × Nat)) (k : Method) : Option Nat :=
  match m with
  | [] => none
  | (k', v) :: rest => if k' = k then some v else mapGet rest k

/-- `Map.has` on the handler map. -/
def mapHas (m : List (Method × Nat)) (k : Method) : Bool :=
  (mapGet m k).isSome

/-- `Map.set` on the handler map: update in place if the key is present,
otherwise append. -/
def mapSet (m : List (Method × Nat)) (k : Method) (v : Nat) : List (Method × Nat) :=
  match m with
  | [] => [(k, v)]
  | (k', v') :: rest => if k' = k then (k, v) :: rest else (k', v') :: mapSet rest k v

/-- `RouteNode.hasHandlers` (`this.handlers.size > 0`). -/
def RouteNode.hasHandlers (n : RouteNode) : Bool :=
  !n.handlers.isEmpty

/-- Set a handler on a node (`node.handlers.set(method, handler)`). -/
def setHandler (n : RouteNode) (m : Method) (h : Nat) : RouteNode :=
  .mk n.raw n.kind (mapSet n.handlers m h) n.children

/-- A captured-parameters record: a JS object keyed by parameter name.  JS
object semantics: setting an existing key updates it in place, a new key is
appended. -/
def objSet (o : List (String × String)) (k v : String) : List (String × String) :=
  match o with
  | [] => [(k, v)]
  | (k', v') :: rest => if k' = k then (k, v) :: rest else (k', v') :: objSet rest k v

/-- Spread-merge `{...a, ...b}` of two records: keys of `b` overwrite. -/
def objMerge (a b : List (String × String)) : List (String × String) :=
  b.foldl (fun acc kv => objSet acc kv.1 kv.2) a

/-- The word-character class of the JS regular expression `\w`. -/
def wordChar (c : Char) : Bool :=
  c.isAlpha || c.isDigit || c = '_'

/-- `ParamNode.parse`: matches the segment against `^:(\w+)(\?|\*|\+)?`.
Returns the captured name and the modifier (`ModifierMap` of the suffix);
the match only needs to cover a prefix of the text, as in the source. -/
def parseParam (text : String) : Option (String × Modifier) :=
  match text.data with
  | [] => none
  | c :: rest =>
    if c = ':' then
      let name := rest.takeWhile wordChar
      if name.isEmpty then none
      else
        let modifier :=
          match rest.dropWhile wordChar with
          | '?' :: _ => Modifier.optional
          | '*' :: _ => Modifier.any
          | '+' :: _ => Modifier.many
          | _ => Modifier.singular
        some (String.mk name, modifier)
    else none

/-- `ParamNode.parse(part) ?? new LiteralNode(part)`: the node created for a
fresh segment.  Both constructors store the whole segment text as `raw`. -/
def mkNode (part : String) : RouteNode :=
  match parseParam part with
  | some (name, m) => .mk part (.param name m) [] []
  | none => .mk part (.literal part) [] []

/-- `path.split("/")` for the single-character separator `/`. -/
def splitSlashAux (cur : List Char) : List Char → List String
  | [] => [String.mk cur.reverse]
  | c :: rest =>
    if c = '/' then String.mk cur.reverse :: splitSlashAux [] rest
    else splitSlashAux (c :: cur) rest

/-- `path.split("/").filter((part) => part.length > 0)`: the non-empty
segments of a path, used identically by the builder and the matcher. -/
def splitPath (path : String) : List String :=
  (splitSlashAux [] path.data).filter (fun p => !p.isEmpty)

/-- `parts.join("/")`. -/
def joinSlash : List String → String
  | [] => ""
  | [s] => s
  | s :: rest => s ++ "/" ++ joinSlash rest

/-- The result of `matchParts`: segments consumed and parameters captured. -/
structure MatchResult where
  taken : Nat
  params : List (String × String)
  deriving DecidableEq, Repr

/-- `ParamNode.matchParts`, by modifier, exactly as the four branches of the
source (`parts[0] ?? ""` is `headD ""`; the `any` branch returns the joined
string unless its length is zero). -/
def matchParamParts (name : String) (m : Modifier) (parts : List String) :
    Option MatchResult :=
  match m with
  | .singular =>
    if 0 < parts.length then some ⟨1, [(name, parts.headD "")]⟩ else none
  | .optional =>
    some ⟨if 0 < parts.length then 1 else 0, [(name, parts.headD "")]⟩
  | .many =>
    if 0 < parts.length then some ⟨parts.length, [(name, joinSlash parts)]⟩
    else none
  | .any =>
    let joined := joinSlash parts
    some ⟨parts.length, [(name, if 0 < joined.length then joined else "")]⟩

/-- `matchParts` of an arbitrary node.  The outer `Option` models exceptional
termination: `RootNode.matchParts` throws `"unreachable"`, which is the only
`none`; a literal node consumes one segment on exact equality with its text. -/
def matchPartsE (n : RouteNode) (parts : List String) :
    Option (Option MatchResult) :=
  match n.kind with
  | .root => none
  | .literal lit =>
    some (if parts.headD "" = lit ∧ parts ≠ [] then some ⟨1, []⟩ else none)
  | .param name m => some (matchParamParts name m parts)

/-- Whether the node is a `LiteralNode` (the comparator's `instanceof` test). -/
def isLitNode (n : RouteNode) : Bool :=
  match n.kind with
  | .literal _ => true
  | _ => false

/-- Whether the node is a `ParamNode`. -/
def isParamNode (n : RouteNode) : Bool :=
  match n.kind with
  | .param _ _ => true
  | _ => false

/-- Whether the node is a `ParamNode` with a modifier other than `singular`. -/
def isNonSingularNode (n : RouteNode) : Bool :=
  match n.kind with
  | .param _ m => m ≠ .singular
  | _ => false

/-- One step of TimSort's binary insertion specialized to the source's
comparator `(a, _) => a instanceof LiteralNode ? -1 : 1`: the binary search
compares the pivot against prefix elements, and since the comparator ignores
its second argument a literal pivot always lands at index 0 and any other
pivot at the end of the prefix. -/
def binInsert (acc : List RouteNode) (e : RouteNode) : List RouteNode :=
  if isLitNode e then e :: acc else acc ++ [e]

/-- `children.sort((a, _) => a instanceof LiteralNode ? -1 : 1)`.  The
comparator is inconsistent (it ignores its second argument), so ECMAScript
leaves the result implementation-defined; this models V8's TimSort — the
engine of all three advertised runtimes (Deno, Node, Cloudflare Workers) —
specialized to that comparator for fewer than 64 elements, where TimSort
performs a single run detection (`CountAndMakeRun`: the run direction is
decided by comparing the second element to the first, so it is descending
exactly when the second element is a literal; a descending run is reversed)
followed by binary insertion of the remaining elements. -/
def v8Sort (l : List RouteNode) : List RouteNode :=
  match l with
  | [] => []
  | [a] => [a]
  | a :: b :: rest =>
    if isLitNode b then
      (rest.dropWhile isLitNode).foldl binInsert
        ((a :: b :: rest.takeWhile isLitNode).reverse)
    else
      (rest.dropWhile (fun n => !isLitNode n)).foldl binInsert
        (a :: b :: rest.takeWhile (fun n => !isLitNode n))

/-- The two registration-time errors of the builder. -/
inductive RegError where
  | routeConflict
  | illegalModifierPlacement
  deriving DecidableEq, Repr

/-- `current.children.find((child) => child.raw === part)`, returning the
first match together with the siblings before and after it, so that the
in-place mutation of the found child can be modelled functionally. -/
def extractFirst (p : RouteNode → Bool) :
    List RouteNode → Option (List RouteNode × RouteNode × List RouteNode)
  | [] => none
  | c :: rest =>
    if p c then some ([], c, rest)
    else
      match extractFirst p rest with
      | none => none
      | some (pre, m, post) => some (c :: pre, m, post)

/-- The segment loop of `buildRouteTree`, one recursive call per path part.
The returned tree reflects every mutation made before a throw (the source
mutates `current` in place), and the optional `RegError` is the throw.  In
the fresh-child branch the source pushes the new child and sorts before
descending; since the comparator depends only on each element's class, which
the descent never changes, sorting after the recursive update yields the same
list. -/
def insertParts (method : Method) (handler : Nat) :
    List String → RouteNode → Option RegError × RouteNode
  | [], node => (none, node)
  | part :: rest, node =>
    match extractFirst (fun c => c.raw = part) node.children with
    | some (pre, child, post) =>
      if rest.isEmpty then
        if (mapGet child.handlers method).isSome then (some .routeConflict, node)
        else (none, node.withChildren (pre ++ [setHandler child method handler] ++ post))
      else
        let r := insertParts method handler rest child
        (r.1, node.withChildren (pre ++ [r.2] ++ post))
    | none =>
      let newChild := mkNode part
      if !rest.isEmpty && isNonSingularNode newChild then
        (some .illegalModifierPlacement, node)
      else if rest.isEmpty then
        if isLitNode newChild &&
            node.children.any (fun c => c.raw = part && mapHas c.handlers method) then
          (some .routeConflict, node)
        else if isParamNode newChild &&
            node.children.any (fun c => mapHas c.handlers method) then
          (some .routeConflict, node)
        else
          (none, node.withChildren (v8Sort (node.children ++ [setHandler newChild method handler])))
      else
        let r := insertParts method handler rest newChild
        (r.1, node.withChildren (v8Sort (node.children ++ [r.2])))

/-- `buildRouteTree`: the `path === "/"` special case registers on the root
(conflict when the method slot is taken); otherwise the path is split and the
segment loop runs.  The pair is (thrown error, resulting tree). -/
def insertRoute (root : RouteNode) (path : String) (method : Method)
    (handler : Nat) : Option RegError × RouteNode :=
  if path = "/" then
    if mapHas root.handlers method then (some .routeConflict, root)
    else (none, setHandler root method handler)
  else
    insertParts method handler (splitPath path) root

/-- The freshly constructed `RootNode`. -/
def emptyRoot : RouteNode := .mk "/" .root [] []

/-- A found route: the handler and the accumulated parameter record. -/
structure FoundRoute where
  handler : Nat
  params : List (String × String)
  deriving DecidableEq, Repr

/-- The child scan of `findRoute`'s descent loop: a child is skipped when it
owns handlers, none for the requested method, and has no `ParamNode`
children; otherwise its `matchParts` decides.  The outer `none` propagates a
thrown `matchParts` (possible only for a root-kind child); `some none` means
no child matched. -/
def scanChildren (method : Method) (sub : List String) :
    List RouteNode → Option (Option (RouteNode × MatchResult))
  | [] => some none
  | child :: rest =>
    if child.hasHandlers && !mapHas child.handlers method &&
        !(child.children.any isParamNode) then
      scanChildren method sub rest
    else
      match matchPartsE child sub with
      | none => none
      | some none => scanChildren method sub rest
      | some (some r) => some (some (child, r))

/-- The `while (i < parts.length)` descent of `findRoute`.  Each successful
scan consumes at least one segment, so `parts.length` iterations suffice; the
fuel argument makes the recursion structural, and exhausting it (which the
totality lemma below shows cannot happen from the initial fuel) is modelled
as the exceptional `none`. -/
def walkLoop (method : Method) :
    Nat → RouteNode → List String → List (String × String) →
    Option (RouteNode × List String × List (String × String))
  | _, cur, [], ps => some (cur, [], ps)
  | 0, _, _ :: _, _ => none
  | fuel + 1, cur, part :: rem, ps =>
    match scanChildren method (part :: rem) cur.children with
    | none => none
    | some none => some (cur, part :: rem, ps)
    | some (some (c, r)) =>
      walkLoop method fuel c ((part :: rem).drop r.taken) (objMerge ps r.params)

/-- The fallback pass of `findRoute`: the first `ParamNode` child whose
modifier is `optional` or `any`, not ruled out by the method check, and whose
`matchParts` succeeds (it always does for these modifiers).  Only `ParamNode`
children are consulted, so this pass cannot throw. -/
def fallbackScan (method : Method) (sub : List String) :
    List RouteNode → Option (RouteNode × MatchResult)
  | [] => none
  | child :: rest =>
    match child.kind with
    | .param name m =>
      if m = .optional ∨ m = .any then
        if child.hasHandlers && !mapHas child.handlers method then
          fallbackScan method sub rest
        else
          match matchParamParts name m sub with
          | none => fallbackScan method sub rest
          | some r => some (child, r)
      else fallbackScan method sub rest
    | _ => fallbackScan method sub rest

/-- `findRoute`: split the path, descend greedily, fall back to a
zero-segment-capable param child when the landing node lacks a handler for
the method, and return its handler with the accumulated params.  The outer
`none` is a thrown exception, `some none` the regular no-match. -/
def findRouteE (root : RouteNode) (method : Method) (path : String) :
    Option (Option FoundRoute) :=
  let parts := splitPath path
  match walkLoop method parts.length root parts [] with
  | none => none
  | some (cur, rem, ps) =>
    let step :=
      if mapHas cur.handlers method then (cur, ps)
      else
        match fallbackScan method rem cur.children with
        | some (c, r) => (c, objMerge ps r.params)
        | none => (cur, ps)
    match mapGet step.1.handlers method with
    | some h => some (some ⟨h, step.2⟩)
    | none => some none

/-!
Middleware composition (`router.ts`).  A request/response value is modelled
as the list of stage labels executed so far; a terminal handler appends its
label, and a middleware stage records its label and then invokes the `next`
continuation it receives exactly once — the instrumentation used by the
repository's own middleware test.  `ensurePromise` only wraps a value into an
immediately resolved promise and the composed chain awaits stages strictly
sequentially, so it is modelled as the identity on values.
-/

/-- A middleware as used by the composer: it receives the request (here the
trace of executed stages) and the `next` continuation. -/
def Middleware : Type :=
  List String → (List String → List String) → List String

/-- The stage that records `label` and then calls `next` exactly once. -/
def stageMw (label : String) : Middleware :=
  fun req next => next (req ++ [label])

/-- The terminal handler with label `"handler"`. -/
def terminalHandler : List String → List String :=
  fun req => req ++ ["handler"]

/-- The `reduce` of `Router.#register` and `Router.route`: fold the
middleware array over the terminal continuation, each step wrapping the
accumulated continuation as the new `next`. -/
def composeMw (mws : List Middleware) (terminal : List String → List String) :
    List String → List String :=
  mws.foldl (fun next mw => fun req => mw req next) terminal

/-- `Router.middleware` state: each call prepends to the stored array
(`this.#middleware = [middleware, ...this.#middleware]`); `globalsOf` is the
stored array after adding stages with the given labels in order. -/
def globalsOf (labels : List String) : List Middleware :=
  labels.foldl (fun st l => stageMw l :: st) []

/-- The trace of one dispatch: `route` composes the stored global array
around the per-route wrapped handler built by `#register` from the middleware
list passed at registration, and invokes it. -/
def routeTrace (globalLabels perRouteLabels : List String) : List String :=
  composeMw (globalsOf globalLabels)
    (composeMw (perRouteLabels.map stageMw) terminalHandler) []

/-!
Invariant machinery: executable predicates over route trees, the condition on
registration sequences, and reachability of a tree by a sequence of
registrations.
-/

/-- Every node of the forest (children, recursively) has the kind that
`mkNode` assigns to its raw text — in particular no root-kind node ever
occurs below the root, since `mkNode` only builds literal and param nodes. -/
def goodForest : List RouteNode → Bool
  | [] => true
  | .mk raw kind _ cs :: rest =>
    (kind = (mkNode raw).kind) && goodForest cs && goodForest rest

/-- The per-node content of `goodForest`. -/
def nodeGood : RouteNode → Bool
  | .mk raw kind _ cs => (kind = (mkNode raw).kind) && goodForest cs

/-- Every non-singular param node of the forest has no children. -/
def nonSingForest : List RouteNode → Bool
  | [] => true
  | .mk raw kind hs cs :: rest =>
    (!isNonSingularNode (.mk raw kind hs cs) || cs.isEmpty) &&
      nonSingForest cs && nonSingForest rest

/-- The per-node content of `nonSingForest`. -/
def nodeNonSing : RouteNode → Bool
  | .mk raw kind hs cs =>
    (!isNonSingularNode (.mk raw kind hs cs) || cs.isEmpty) && nonSingForest cs

/-- All literal nodes of the list precede all other nodes. -/
def litsFirst : List RouteNode → Bool
  | [] => true
  | c :: rest =>
    if isLitNode c then litsFirst rest else rest.all (fun d => !isLitNode d)

/-- Every node of the forest has a literals-first children list. -/
def sortedForest : List RouteNode → Bool
  | [] => true
  | .mk _ _ _ cs :: rest => litsFirst cs && sortedForest cs && sortedForest rest

/-- The per-node content of `sortedForest`. -/
def nodeSorted : RouteNode → Bool
  | .mk _ _ _ cs => litsFirst cs && sortedForest cs

/-- A segment that may appear before the final one without tripping the
modifier-placement check on a fresh node: it parses as a singular parameter
or not as a parameter at all. -/
def singularish (p : String) : Bool :=
  match parseParam p with
  | some (_, m) => m = .singular
  | none => true

/-- Every non-final segment of the list is `singularish`. -/
def okParts : List String → Bool
  | [] => true
  | p :: rest => (rest.isEmpty || singularish p) && okParts rest

/-- Trees reachable from the fresh root by any sequence of registrations,
successful or failing (a failing registration also leaves its partial
mutations in the tree, as in the source). -/
inductive Reachable : RouteNode → Prop
  | empty : Reachable emptyRoot
  | step (t : RouteNode) (path : String) (m : Method) (h : Nat) :
      Reachable t → Reachable (insertRoute t path m h).2

/-- Trees reachable by registrations, successful or failing, whose patterns
never place a segment that parses as a non-singular parameter before the
final segment. -/
inductive ReachableOK : RouteNode → Prop
  | empty : ReachableOK emptyRoot
  | step (t : RouteNode) (path : String) (m : Method) (h : Nat) :
      ReachableOK t → okParts (splitPath path) = true →
      ReachableOK (insertRoute t path m h).2

/-- The param nodes of a children list, in order. -/
def paramsOnly (l : List RouteNode) : List RouteNode :=
  l.filter (fun c => !isLitNode c)

/-- Shorthand for the tree left by a registration. -/
def regT (t : RouteNode) (p : String) (m : Method) (h : Nat) : RouteNode :=
  (insertRoute t p m h).2

/-- The tree of the spec's modifier examples: GET `/paramsOptional/:test?`,
GET `/paramsMany/:test+`, GET `/paramsAny/:test*`. -/
def tParams : RouteNode :=
  regT (regT (regT emptyRoot "/paramsOptional/:test?" .get 0)
    "/paramsMany/:test+" .get 1) "/paramsAny/:test*" .get 2

/-- GET `/:p/x` followed by GET `/a/y`. -/
def tBacktrack : RouteNode :=
  regT (regT emptyRoot "/:p/x" .get 0) "/a/y" .get 1

/-- GET `/:p/x` alone. -/
def tSlashPx : RouteNode := regT emptyRoot "/:p/x" .get 0

/-- GET `/:x/:x`: the same parameter name at two depths. -/
def tDupName : RouteNode := regT emptyRoot "/:x/:x" .get 0

/-- GET `/x/:y?` followed by GET `/x/:y?/z` (textual reuse of the optional
segment in a non-final position). -/
def tReuse : RouteNode :=
  regT (regT emptyRoot "/x/:y?" .get 0) "/x/:y?/z" .get 1

/-- GET `/a` followed by GET `/b`. -/
def tTwoLits : RouteNode := regT (regT emptyRoot "/a" .get 0) "/b" .get 1

/-- If a string's length is not positive it is empty, so the source's
`joined.length > 0 ? joined : ""` is the joined string itself. -/
theorem if_pos_length (s : String) : (if 0 < s.length then s else "") = s := by
  by_cases h : 0 < s.length
  · simp [h]
  · have hlen : s.data.length = 0 := Nat.eq_zero_of_not_pos h
    have hdata : s.data = [] := List.length_eq_zero.mp hlen
    cases s with
    | mk data => simp_all

/-- C1.  Parameter capture semantics of lookup: `ParamNode.matchParts`
consumes segments per the modifier — `singular` consumes exactly one segment
and captures it; `optional` consumes one if present, else zero with captured
value `""`; `many` requires at least one remaining segment, consumes all
remaining segments joined with `/`, and yields no match when zero remain;
`any` consumes all remaining segments (possibly zero) joined with `/`, with
captured value `""` when zero are consumed — and `findRoute` realises exactly
the spec's lookups on the registered example routes. -/
theorem c1_param_capture_semantics :
    (∀ name (parts : List String), matchParamParts name .singular parts =
      if parts.isEmpty then none else some ⟨1, [(name, parts.headD "")]⟩) ∧
    (∀ name (parts : List String), matchParamParts name .optional parts =
      some ⟨if parts.isEmpty then 0 else 1, [(name, parts.headD "")]⟩) ∧
    (∀ name (parts : List String), matchParamParts name .many parts =
      if parts.isEmpty then none
      else some ⟨parts.length, [(name, joinSlash parts)]⟩) ∧
    (∀ name (parts : List String), matchParamParts name .any parts =
      some ⟨parts.length, [(name, joinSlash parts)]⟩) ∧
    findRouteE tParams .get "/paramsMany/test/testing" =
      some (some ⟨1, [("test", "test/testing")]⟩) ∧
    findRouteE tParams .get "/paramsMany" = some none ∧
    findRouteE tParams .get "/paramsAny" = some (some ⟨2, [("test", "")]⟩) ∧
    findRouteE tParams .get "/paramsAny/test/testing" =
      some (some ⟨2, [("test", "test/testing")]⟩) ∧
    findRouteE tParams .get "/paramsOptional" = some (some ⟨0, [("test", "")]⟩) ∧
    findRouteE tParams .get "/paramsOptional/test" =
      some (some ⟨0, [("test", "test")]⟩) := by
  refine ⟨?_, ?_, ?_, ?_, by decide, by decide, by decide, by decide, by decide, by decide⟩
  · intro name parts
    cases parts <;> simp [matchParamParts]
  · intro name parts
    cases parts <;> simp [matchParamParts]
  · intro name parts
    cases parts <;> simp [matchParamParts]
  · intro name parts
    cases parts with
    | nil => simp [matchParamParts, joinSlash]
    | cons p rest => simp [matchParamParts, if_pos_length]

/-- C2 counterexample.  The claim states that registering GET `/:param` and
then GET `/literal` on an empty tree also raises `RouteConflict`; in fact the
second registration succeeds (the literal conflict check requires a sibling
with identical raw text, and `:param` differs from `literal`), so only the
literal-then-param order raises. -/
theorem c2_reverse_order_no_conflict :
    (insertRoute (regT emptyRoot "/:param" .get 0) "/literal" .get 1).1 = none ∧
    (regT (regT emptyRoot "/:param" .get 0) "/literal" .get 1).children.map
      RouteNode.raw = ["literal", ":param"] := by
  decide

/-- C2 (amended).  Conflict detection between a literal and a parameter at
the same depth is order-dependent: on an empty tree, registering GET
`/literal` and then GET `/:param` raises `RouteConflict`, while registering
GET `/:param` first and then GET `/literal` succeeds. -/
theorem c2_literal_param_conflict_order :
    (insertRoute (regT emptyRoot "/literal" .get 0) "/:param" .get 1).1 =
      some .routeConflict ∧
    (insertRoute (regT emptyRoot "/:param" .get 0) "/literal" .get 1).1 = none := by
  decide

/-- C3 counterexample.  The claim states that after registering GET `/x`,
registering POST `/:p` at the same depth is rejected; in fact it succeeds,
because the parameter conflict check only looks for a sibling holding a
handler for the new registration's own method. -/
theorem c3_cross_method_param_allowed :
    (insertRoute (regT emptyRoot "/x" .get 0) "/:p" .post 1).1 = none := by
  decide

/-- C3 (amended).  A registration whose final segment creates a new
`ParamNode` raises `RouteConflict` exactly when some existing sibling at that
depth holds a handler for the same method as the new registration: after
registering GET `/x`, registering GET `/:p` is rejected while POST `/:p`
succeeds. -/
theorem c3_param_conflict_same_method :
    (insertRoute (regT emptyRoot "/x" .get 0) "/:p" .get 1).1 =
      some .routeConflict ∧
    (insertRoute (regT emptyRoot "/x" .get 0) "/:p" .post 1).1 = none := by
  decide

/-- C7 counterexample.  The claim states that no node created by a
registration failing with `IllegalModifierPlacement` remains in the tree,
including literal prefix segments before the offending one; registering GET
`/a/:b?/c` on an empty tree raises the error, yet the literal node `a`
created for the prefix segment remains. -/
theorem c7_prefix_nodes_remain :
    (insertRoute emptyRoot "/a/:b?/c" .get 0).1 = some .illegalModifierPlacement ∧
    (insertRoute emptyRoot "/a/:b?/c" .get 0).2.children.map RouteNode.raw =
      ["a"] := by
  decide

/-- C7 (amended).  Registering a pattern in which a non-singular modifier
(`?`, `+`, `*`) appears on a fresh segment that is not the final segment
raises `IllegalModifierPlacement` synchronously, before the offending node is
pushed; the spec's three examples leave the empty tree completely unchanged
because the offending segment is the first, but nodes already created for
earlier segments of the failing pattern remain in the tree (no rollback), as
the `/a/:b?/c` registration shows. -/
theorem c7_illegal_modifier_placement :
    insertRoute emptyRoot "/:name?/thingy" .get 0 =
      (some .illegalModifierPlacement, emptyRoot) ∧
    insertRoute emptyRoot "/:name+/thingy" .get 0 =
      (some .illegalModifierPlacement, emptyRoot) ∧
    insertRoute emptyRoot "/:name*/thingy" .get 0 =
      (some .illegalModifierPlacement, emptyRoot) ∧
    (insertRoute emptyRoot "/a/:b?/c" .get 0).1 = some .illegalModifierPlacement ∧
    (insertRoute emptyRoot "/a/:b?/c" .get 0).2.children.map RouteNode.raw =
      ["a"] ∧
    ((insertRoute emptyRoot "/a/:b?/c" .get 0).2.children.map
      RouteNode.handlers) = [[]] ∧
    ((insertRoute emptyRoot "/a/:b?/c" .get 0).2.children.map
      fun c => c.children.length) = [0] :=
  ⟨rfl, rfl, rfl, by decide, by decide, by decide, by decide⟩

/-- C9.  The matcher never backtracks: with GET `/:p/x` and GET `/a/y`
registered, looking up GET `/a/x` descends into the literal child `a`
(literals are scanned before params), fails below it, and reports no-match —
even though the registered pattern `/:p/x` matches `/a/x`, as the lookup on a
tree holding only that route shows. -/
theorem c9_no_backtracking :
    findRouteE tBacktrack .get "/a/x" = some none ∧
    findRouteE tSlashPx .get "/a/x" = some (some ⟨0, [("p", "a")]⟩) := by
  decide

/-- C10.  Duplicate parameter names collapse to the deepest capture: with GET
`/:x/:x` registered, looking up GET `/a/b` returns a params record with a
single entry for `x` holding the deeper capture `b`, because each step's
captures are spread-merged over the accumulator with later entries
overwriting earlier ones. -/
theorem c10_duplicate_param_names :
    findRouteE tDupName .get "/a/b" = some (some ⟨0, [("x", "b")]⟩) := by
  decide

/-- Folding the registration-style `reduce` over labelled stages: the stage
processed last becomes outermost, so the composed callable runs the labels in
reverse list order before the terminal continuation. -/
theorem composeMw_map_stage (ls : List String)
    (t : List String → List String) (req : List String) :
    composeMw (ls.map stageMw) t req = t (req ++ ls.reverse) := by
  induction ls generalizing t req with
  | nil => simp [composeMw]
  | cons l rest ih =>
    simp only [List.map_cons, composeMw, List.foldl_cons]
    have := ih (fun r => stageMw l r t) req
    simp only [composeMw] at this
    rw [this]
    simp [stageMw, List.append_assoc]

/-- `Router.middleware` prepends, so the stored array is the reverse of the
order in which the stages were added. -/
theorem globalsOf_eq_reverse_map (ls : List String) :
    globalsOf ls = (ls.reverse).map stageMw := by
  have h : ∀ acc, ls.foldl (fun st l => stageMw l :: st) acc =
      (ls.reverse).map stageMw ++ acc := by
    induction ls with
    | nil => intro acc; simp
    | cons l rest ih =>
      intro acc
      simp [List.foldl_cons, ih, List.map_append]
  simpa using h []

/-- C4 counterexample.  The claim states that per-route middleware passed as
`m1, m2` to the registration call executes in that order before the terminal
handler; with no global middleware, the composed chain actually executes
`m2` first. -/
theorem c4_per_route_order_reversed :
    routeTrace [] ["m1", "m2"] = ["m2", "m1", "handler"] ∧
    routeTrace [] ["m1", "m2"] ≠ ["m1", "m2", "handler"] := by
  constructor
  · rfl
  · intro h
    simp [routeTrace, composeMw, globalsOf, stageMw, terminalHandler] at h

/-- C4 (amended).  For every request that matches a route, with global
middleware `g1, …, gn` added in that order via `middleware()` and per-route
middleware `m1, …, mk` passed in that order to the registration call, and
every stage calling its `next` continuation exactly once, the composed chain
executes the global middleware in registration order, then the per-route
middleware in reverse of the order passed (`mk, …, m1`), then the terminal
handler — each stage exactly once.  (The global `middleware()` call prepends
to the stored array, which cancels the reversal introduced by the `reduce`
composition; the per-route list is folded directly, so its reversal
remains.) -/
theorem c4_middleware_execution_order (gs ms : List String) :
    routeTrace gs ms = gs ++ ms.reverse ++ ["handler"] := by
  unfold routeTrace
  rw [globalsOf_eq_reverse_map, composeMw_map_stage, composeMw_map_stage]
  simp [terminalHandler]

/-- Unfolding lemma: `extractFirst` returns the first match and the exact
decomposition of the list around it. -/
theorem extractFirst_eq {p : RouteNode → Bool} :
    ∀ {cs pre c post}, extractFirst p cs = some (pre, c, post) →
      cs = pre ++ c :: post ∧ p c = true := by
  intro cs
  induction cs with
  | nil => intro pre c post h; simp [extractFirst] at h
  | cons d rest ih =>
    intro pre c post h
    by_cases hd : p d
    · simp [extractFirst, hd] at h
      obtain ⟨h1, h2, h3⟩ := h
      subst h1; subst h2; subst h3
      exact ⟨rfl, hd⟩
    · simp [extractFirst, hd] at h
      match hrec : extractFirst p rest with
      | none => rw [hrec] at h; simp at h
      | some (pre', c', post') =>
        rw [hrec] at h
        simp at h
        obtain ⟨h1, h2, h3⟩ := h
        obtain ⟨hcs, hc⟩ := ih hrec
        subst h1; subst h2; subst h3
        exact ⟨by simp [hcs], hc⟩

/-- `insertParts` never changes the raw text or the kind of the node it is
applied to (the source only mutates `children` and, on descendants,
`handlers`). -/
theorem insertParts_raw_kind (m : Method) (h : Nat) :
    ∀ (parts : List String) (node : RouteNode),
      ((insertParts m h parts node).2).raw = node.raw ∧
      ((insertParts m h parts node).2).kind = node.kind := by
  intro parts node
  cases parts with
  | nil => exact ⟨rfl, rfl⟩
  | cons part rest =>
    cases node with
    | mk r k hs cs =>
      simp only [insertParts]
      repeat' split
      all_goals exact ⟨rfl, rfl⟩

/-- `takeWhile` passes over a prefix that wholly satisfies the predicate. -/
theorem takeWhile_append_all {α : Type} (p : α → Bool) :
    ∀ (A B : List α), (∀ a ∈ A, p a = true) →
      (A ++ B).takeWhile p = A ++ B.takeWhile p := by
  intro A B hA
  induction A with
  | nil => simp
  | cons a rest ih =>
    have ha : p a = true := hA a (by simp)
    simp [List.takeWhile_cons, ha]
    exact ih fun x hx => hA x (by simp [hx])

/-- `dropWhile` consumes a prefix that wholly satisfies the predicate. -/
theorem dropWhile_append_all {α : Type} (p : α → Bool) :
    ∀ (A B : List α), (∀ a ∈ A, p a = true) →
      (A ++ B).dropWhile p = B.dropWhile p := by
  intro A B hA
  induction A with
  | nil => simp
  | cons a rest ih =>
    have ha : p a = true := hA a (by simp)
    simp [List.dropWhile_cons, ha]
    exact ih fun x hx => hA x (by simp [hx])

/-- `takeWhile` of a list whose head fails the predicate is empty. -/
theorem takeWhile_head_false {α : Type} (p : α → Bool) (b : α) (B : List α)
    (hb : p b = false) : (b :: B).takeWhile p = [] := by
  simp [List.takeWhile_cons, hb]

/-- `dropWhile` of a list whose head fails the predicate is the list. -/
theorem dropWhile_head_false {α : Type} (p : α → Bool) (b : α) (B : List α)
    (hb : p b = false) : (b :: B).dropWhile p = b :: B := by
  simp [List.dropWhile_cons, hb]

/-- Binary insertion of elements that are not literals appends them in
order. -/
theorem foldl_binInsert_params :
    ∀ (P : List RouteNode), (∀ e ∈ P, isLitNode e = false) →
      ∀ acc, P.foldl binInsert acc = acc ++ P := by
  intro P
  induction P with
  | nil => intro _ acc; simp
  | cons e rest ih =>
    intro hP acc
    have he : isLitNode e = false := hP e (by simp)
    simp only [List.foldl_cons, binInsert, he]
    rw [if_neg (by simp [he])]
    rw [ih (fun x hx => hP x (by simp [hx])) (acc ++ [e])]
    simp

/-- Pushing one element onto a literals-first list and sorting with the
source's comparator: under V8's TimSort, a pushed literal lands at the front,
a pushed non-literal stays at the end, and a leading block of two or more
literals is reversed (the descending-run detection fires on it); the
non-literal block keeps its order. -/
theorem v8Sort_push (A B : List RouteNode) (x : RouteNode)
    (hA : ∀ a ∈ A, isLitNode a = true) (hB : ∀ b ∈ B, isLitNode b = false) :
    v8Sort (A ++ B ++ [x]) =
      if isLitNode x then x :: (if 2 ≤ A.length then A.reverse else A) ++ B
      else (if 2 ≤ A.length then A.reverse else A) ++ B ++ [x] := by
  rcases A with _ | ⟨a1, A1⟩
  · rcases B with _ | ⟨b1, B'⟩
    · by_cases hx : isLitNode x <;> simp [v8Sort, hx]
    · have hb1 : isLitNode b1 = false := hB b1 (by simp)
      rcases B' with _ | ⟨b2, B''⟩
      · by_cases hx : isLitNode x <;> simp [v8Sort, hx, hb1, binInsert]
      · have hb2 : isLitNode b2 = false := hB b2 (by simp)
        have hB'' : ∀ b ∈ B'', (fun n => !isLitNode n) b = true := by
          intro b hb; simp [hB b (by simp [hb])]
        by_cases hx : isLitNode x <;>
          simp [v8Sort, hx, hb1, hb2, binInsert,
            takeWhile_append_all (fun n => !isLitNode n) B'' [x] hB'',
            dropWhile_append_all (fun n => !isLitNode n) B'' [x] hB'']
  · rcases A1 with _ | ⟨a2, A'⟩
    · have ha1 : isLitNode a1 = true := hA a1 (by simp)
      rcases B with _ | ⟨b1, B'⟩
      · by_cases hx : isLitNode x <;> simp [v8Sort, hx, ha1, binInsert]
      · have hb1 : isLitNode b1 = false := hB b1 (by simp)
        have hB' : ∀ b ∈ B', (fun n => !isLitNode n) b = true := by
          intro b hb; simp [hB b (by simp [hb])]
        by_cases hx : isLitNode x <;>
          simp [v8Sort, hx, ha1, hb1, binInsert,
            takeWhile_append_all (fun n => !isLitNode n) B' [x] hB',
            dropWhile_append_all (fun n => !isLitNode n) B' [x] hB']
    · have ha1 : isLitNode a1 = true := hA a1 (by simp)
      have ha2 : isLitNode a2 = true := hA a2 (by simp)
      have hA' : ∀ a ∈ A', isLitNode a = true := fun a ha => hA a (by simp [ha])
      rcases B with _ | ⟨b1, B'⟩
      · by_cases hx : isLitNode x <;>
          simp [v8Sort, hx, ha1, ha2, binInsert,
            takeWhile_append_all isLitNode A' [x] hA',
            dropWhile_append_all isLitNode A' [x] hA']
      · have hb1 : isLitNode b1 = false := hB b1 (by simp)
        have htk : (A' ++ (b1 :: (B' ++ [x]))).takeWhile isLitNode = A' := by
          rw [takeWhile_append_all isLitNode A' (b1 :: (B' ++ [x])) hA',
            takeWhile_head_false isLitNode b1 (B' ++ [x]) hb1]
          simp
        have hdp : (A' ++ (b1 :: (B' ++ [x]))).dropWhile isLitNode =
            b1 :: (B' ++ [x]) := by
          rw [dropWhile_append_all isLitNode A' (b1 :: (B' ++ [x])) hA',
            dropWhile_head_false isLitNode b1 (B' ++ [x]) hb1]
        have hfold : ∀ init : List RouteNode,
            (b1 :: (B' ++ [x])).foldl binInsert init =
              if isLitNode x then x :: (init ++ b1 :: B')
              else (init ++ b1 :: B') ++ [x] := by
          intro init
          rw [show b1 :: (B' ++ [x]) = (b1 :: B') ++ [x] by simp,
            List.foldl_append, foldl_binInsert_params (b1 :: B') hB]
          by_cases hx : isLitNode x <;> simp [binInsert, hx]
        have hlist : (a1 :: a2 :: A') ++ (b1 :: B') ++ [x] =
            a1 :: a2 :: (A' ++ (b1 :: (B' ++ [x]))) := by simp
        rw [hlist]
        simp only [v8Sort, ha2, if_pos]
        rw [htk, hdp, hfold]
        by_cases hx : isLitNode x <;> simp [hx]

/-- Elements produced by binary insertion come from the accumulator or the
inserted list. -/
theorem mem_foldl_binInsert :
    ∀ (rem acc : List RouteNode) (y : RouteNode),
      y ∈ rem.foldl binInsert acc → y ∈ acc ∨ y ∈ rem := by
  intro rem
  induction rem with
  | nil => intro acc y hy; exact Or.inl hy
  | cons e rest ih =>
    intro acc y hy
    rcases ih (binInsert acc e) y hy with h | h
    · by_cases he : isLitNode e
      · simp [binInsert, he] at h
        rcases h with h | h
        · exact Or.inr (by simp [h])
        · exact Or.inl h
      · simp [binInsert, he] at h
        rcases h with h | h
        · exact Or.inl h
        · exact Or.inr (by simp [h])
    · exact Or.inr (by simp [h])

/-- Elements of `takeWhile` are elements of the list. -/
theorem mem_takeWhile_mem {α : Type} (p : α → Bool) :
    ∀ (l : List α) (y : α), y ∈ l.takeWhile p → y ∈ l := by
  intro l
  induction l with
  | nil => intro y hy; simp at hy
  | cons a rest ih =>
    intro y hy
    rw [List.takeWhile_cons] at hy
    by_cases ha : p a
    · simp [ha] at hy
      rcases hy with hy | hy
      · simp [hy]
      · simp [ih y hy]
    · simp [ha] at hy

/-- Elements of `dropWhile` are elements of the list. -/
theorem mem_dropWhile_mem {α : Type} (p : α → Bool) :
    ∀ (l : List α) (y : α), y ∈ l.dropWhile p → y ∈ l := by
  intro l
  induction l with
  | nil => intro y hy; simp at hy
  | cons a rest ih =>
    intro y hy
    rw [List.dropWhile_cons] at hy
    by_cases ha : p a
    · simp [ha] at hy
      simp [ih y hy]
    · simp [ha] at hy
      simp [hy]

/-- The sort only rearranges: every element of the output is an element of
the input. -/
theorem mem_v8Sort : ∀ (l : List RouteNode) (y : RouteNode), y ∈ v8Sort l → y ∈ l := by
  intro l y hy
  match l with
  | [] => simp [v8Sort] at hy
  | [a] => simpa [v8Sort] using hy
  | a :: b :: rest =>
    simp only [v8Sort] at hy
    by_cases hb : isLitNode b
    · rw [if_pos hb] at hy
      rcases mem_foldl_binInsert _ _ y hy with h | h
      · rw [List.mem_reverse, List.mem_cons, List.mem_cons] at h
        rcases h with h | h | h
        · simp [h]
        · simp [h]
        · simp [mem_takeWhile_mem isLitNode rest y h]
      · simp [mem_dropWhile_mem isLitNode rest y h]
    · rw [if_neg hb] at hy
      rcases mem_foldl_binInsert _ _ y hy with h | h
      · rw [List.mem_cons, List.mem_cons] at h
        rcases h with h | h | h
        · simp [h]
        · simp [h]
        · simp [mem_takeWhile_mem _ rest y h]
      · simp [mem_dropWhile_mem _ rest y h]

/-- A property of all elements survives the sort. -/
theorem v8Sort_all {p : RouteNode → Bool} {l : List RouteNode}
    (h : ∀ y ∈ l, p y = true) : ∀ y ∈ v8Sort l, p y = true :=
  fun y hy => h y (mem_v8Sort l y hy)

/-- `goodForest` splits head-first. -/
theorem goodForest_cons (c : RouteNode) (rest : List RouteNode) :
    goodForest (c :: rest) = (nodeGood c && goodForest rest) := by
  cases c with
  | mk r k hs cs => simp [goodForest, nodeGood, Bool.and_assoc]

/-- `goodForest` is the conjunction of `nodeGood` over the list. -/
theorem goodForest_eq_all (l : List RouteNode) :
    goodForest l = true ↔ ∀ c ∈ l, nodeGood c = true := by
  induction l with
  | nil => simp [goodForest]
  | cons c rest ih => simp [goodForest_cons, ih]

/-- `nonSingForest` splits head-first. -/
theorem nonSingForest_cons (c : RouteNode) (rest : List RouteNode) :
    nonSingForest (c :: rest) = (nodeNonSing c && nonSingForest rest) := by
  cases c with
  | mk r k hs cs => simp [nonSingForest, nodeNonSing, Bool.and_assoc]

/-- `nonSingForest` is the conjunction of `nodeNonSing` over the list. -/
theorem nonSingForest_eq_all (l : List RouteNode) :
    nonSingForest l = true ↔ ∀ c ∈ l, nodeNonSing c = true := by
  induction l with
  | nil => simp [nonSingForest]
  | cons c rest ih => simp [nonSingForest_cons, ih]

/-- `sortedForest` splits head-first. -/
theorem sortedForest_cons (c : RouteNode) (rest : List RouteNode) :
    sortedForest (c :: rest) = (nodeSorted c && sortedForest rest) := by
  cases c with
  | mk r k hs cs => simp [sortedForest, nodeSorted, Bool.and_assoc]

/-- `sortedForest` is the conjunction of `nodeSorted` over the list. -/
theorem sortedForest_eq_all (l : List RouteNode) :
    sortedForest l = true ↔ ∀ c ∈ l, nodeSorted c = true := by
  induction l with
  | nil => simp [sortedForest]
  | cons c rest ih => simp [sortedForest_cons, ih]

/-- A literal block followed by a non-literal block is literals-first. -/
theorem litsFirst_split (A B : List RouteNode)
    (hA : ∀ a ∈ A, isLitNode a = true) (hB : ∀ b ∈ B, isLitNode b = false) :
    litsFirst (A ++ B) = true := by
  induction A with
  | nil =>
    cases B with
    | nil => simp [litsFirst]
    | cons b B' =>
      have hb : isLitNode b = false := hB b (by simp)
      simp [litsFirst, hb]
      intro d hd
      exact hB d (by simp [hd])
  | cons a A' ih =>
    have ha : isLitNode a = true := hA a (by simp)
    simp only [List.cons_append, litsFirst, ha, if_pos]
    exact ih fun y hy => hA y (by simp [hy])

/-- A literals-first list decomposes into its literal block followed by its
non-literal block. -/
theorem litsFirst_decomp :
    ∀ (l : List RouteNode), litsFirst l = true →
      ∃ A B, l = A ++ B ∧ (∀ a ∈ A, isLitNode a = true) ∧
        (∀ b ∈ B, isLitNode b = false) := by
  intro l
  induction l with
  | nil => intro _; exact ⟨[], [], rfl, by simp, by simp⟩
  | cons c rest ih =>
    intro hl
    by_cases hc : isLitNode c
    · rw [litsFirst, if_pos hc] at hl
      obtain ⟨A, B, hAB, hA, hB⟩ := ih hl
      exact ⟨c :: A, B, by simp [hAB], by
        intro a ha
        rcases List.mem_cons.mp ha with h | h
        · subst h; exact hc
        · exact hA a h, hB⟩
    · rw [litsFirst, if_neg hc] at hl
      refine ⟨[], c :: rest, by simp, by simp, ?_⟩
      intro b hb
      rcases List.mem_cons.mp hb with h | h
      · subst h; exact Bool.eq_false_iff.mpr hc
      · have := (List.all_eq_true.mp hl) b h
        simpa using this

/-- Replacing one element by one of the same literal-ness does not change
whether the list is literals-first. -/
theorem litsFirst_congr :
    ∀ (pre : List RouteNode) (c c' : RouteNode) (post : List RouteNode),
      isLitNode c' = isLitNode c → litsFirst (pre ++ c :: post) = true →
      litsFirst (pre ++ c' :: post) = true := by
  intro pre
  induction pre with
  | nil =>
    intro c c' post hcc h
    simp only [List.nil_append] at h ⊢
    rw [litsFirst] at h ⊢
    rw [hcc]
    by_cases hc : isLitNode c
    · rwa [if_pos hc] at h ⊢
    · rwa [if_neg hc] at h ⊢
  | cons d pre' ih =>
    intro c c' post hcc h
    simp only [List.cons_append] at h ⊢
    rw [litsFirst] at h ⊢
    by_cases hd : isLitNode d
    · rw [if_pos hd] at h ⊢
      exact ih c c' post hcc h
    · rw [if_neg hd] at h ⊢
      rw [List.all_eq_true] at h ⊢
      intro y hy
      rcases List.mem_append.mp hy with hy' | hy'
      · exact h y (by simp [hy'])
      · rcases List.mem_cons.mp hy' with hy'' | hy''
        · subst hy''; simp [hcc]
          have := h c (by simp)
          simpa using this
        · exact h y (by simp [hy''])

/-- `mkNode` stores the whole segment text as `raw`. -/
theorem mkNode_raw (p : String) : (mkNode p).raw = p := by
  rcases hp : parseParam p with _ | ⟨name, md⟩ <;> simp [mkNode, hp, RouteNode.raw]

/-- A freshly created node has no children. -/
theorem mkNode_children (p : String) : (mkNode p).children = [] := by
  rcases hp : parseParam p with _ | ⟨name, md⟩ <;> simp [mkNode, hp, RouteNode.children]

/-- A freshly created node is never root-kind. -/
theorem mkNode_kind_ne_root (p : String) : (mkNode p).kind ≠ NodeKind.root := by
  rcases hp : parseParam p with _ | ⟨name, md⟩ <;> simp [mkNode, hp, RouteNode.kind]

/-- `nodeGood` unfolded through the field accessors. -/
theorem nodeGood_iff (c : RouteNode) :
    nodeGood c = true ↔
      c.kind = (mkNode c.raw).kind ∧ goodForest c.children = true := by
  cases c with
  | mk r k hs cs =>
    simp [nodeGood, RouteNode.kind, RouteNode.raw, RouteNode.children]

/-- A freshly created node is well-kinded. -/
theorem nodeGood_mkNode (p : String) : nodeGood (mkNode p) = true := by
  rw [nodeGood_iff, mkNode_raw, mkNode_children]
  exact ⟨rfl, by simp [goodForest]⟩

/-- Setting a handler only changes the handler map. -/
theorem nodeGood_setHandler (n : RouteNode) (m : Method) (h : Nat) :
    nodeGood (setHandler n m h) = nodeGood n := by
  cases n with
  | mk r k hs cs =>
    simp [nodeGood, setHandler, RouteNode.raw, RouteNode.kind, RouteNode.children]

/-- `nodeNonSing` unfolded through the field accessors. -/
theorem nodeNonSing_iff (c : RouteNode) :
    nodeNonSing c = true ↔
      (isNonSingularNode c = true → c.children = []) ∧
        nonSingForest c.children = true := by
  cases c with
  | mk r k hs cs =>
    simp [nodeNonSing, RouteNode.children, List.isEmpty_iff]
    by_cases hns : isNonSingularNode (RouteNode.mk r k hs cs) <;> simp [hns]

/-- Setting a handler does not affect the non-singular-leaf property. -/
theorem nodeNonSing_setHandler (n : RouteNode) (m : Method) (h : Nat) :
    nodeNonSing (setHandler n m h) = nodeNonSing n := by
  cases n with
  | mk r k hs cs =>
    simp [nodeNonSing, setHandler, isNonSingularNode,
      RouteNode.raw, RouteNode.kind, RouteNode.children]

/-- `nodeSorted` unfolded through the field accessors. -/
theorem nodeSorted_iff (c : RouteNode) :
    nodeSorted c = true ↔
      litsFirst c.children = true ∧ sortedForest c.children = true := by
  cases c with
  | mk r k hs cs => simp [nodeSorted, RouteNode.children]

/-- Setting a handler does not affect the children ordering property. -/
theorem nodeSorted_setHandler (n : RouteNode) (m : Method) (h : Nat) :
    nodeSorted (setHandler n m h) = nodeSorted n := by
  cases n with
  | mk r k hs cs =>
    simp [nodeSorted, setHandler, RouteNode.raw, RouteNode.kind, RouteNode.children]

/-- Literal-ness is a function of the kind alone. -/
theorem isLitNode_congr {n n' : RouteNode} (h : n.kind = n'.kind) :
    isLitNode n = isLitNode n' := by
  cases n with
  | mk r k hs cs =>
    cases n' with
    | mk r' k' hs' cs' =>
      simp [RouteNode.kind] at h
      simp [isLitNode, RouteNode.kind, h]

/-- Setting a handler preserves literal-ness. -/
theorem isLitNode_setHandler (n : RouteNode) (m : Method) (h : Nat) :
    isLitNode (setHandler n m h) = isLitNode n :=
  isLitNode_congr rfl

/-- Non-singularity is a function of the kind alone. -/
theorem isNonSingularNode_congr {n n' : RouteNode} (h : n.kind = n'.kind) :
    isNonSingularNode n = isNonSingularNode n' := by
  cases n with
  | mk r k hs cs =>
    cases n' with
    | mk r' k' hs' cs' =>
      simp [RouteNode.kind] at h
      simp [isNonSingularNode, RouteNode.kind, h]

/-- Inserting a route below a node keeps every node of the tree well-kinded. -/
theorem insertParts_good (m : Method) (h : Nat) :
    ∀ (parts : List String) (node : RouteNode),
      goodForest node.children = true →
      goodForest ((insertParts m h parts node).2).children = true := by
  intro parts
  induction parts with
  | nil => intro node hg; exact hg
  | cons part rest ih =>
    intro node hg
    cases node with
    | mk r k hs cs =>
      simp only [RouteNode.children] at hg
      rw [goodForest_eq_all] at hg
      rcases hE : extractFirst (fun c => c.raw = part) cs with _ | ⟨pre, child, post⟩
      · -- fresh child branch
        cases hrest : rest.isEmpty with
        | true =>
          cases hc1 : (isLitNode (mkNode part) &&
              cs.any fun c => c.raw = part && mapHas c.handlers m) with
          | true =>
            simp [insertParts, hE, hrest, hc1, RouteNode.children]
            rw [goodForest_eq_all]; exact hg
          | false =>
            cases hc2 : (isParamNode (mkNode part) &&
                cs.any fun c => mapHas c.handlers m) with
            | true =>
              simp [insertParts, hE, hrest, hc1, hc2, RouteNode.children]
              rw [goodForest_eq_all]; exact hg
            | false =>
              simp [insertParts, hE, hrest, hc1, hc2,
                RouteNode.withChildren, RouteNode.children]
              rw [goodForest_eq_all]
              apply v8Sort_all
              intro y hy
              rcases List.mem_append.mp hy with hy' | hy'
              · exact hg y hy'
              · rw [List.mem_singleton.mp hy', nodeGood_setHandler]
                exact nodeGood_mkNode part
        | false =>
          cases hns : isNonSingularNode (mkNode part) with
          | true =>
            simp [insertParts, hE, hrest, hns, RouteNode.children]
            rw [goodForest_eq_all]; exact hg
          | false =>
            simp [insertParts, hE, hrest, hns,
              RouteNode.withChildren, RouteNode.children]
            rw [goodForest_eq_all]
            apply v8Sort_all
            intro y hy
            rcases List.mem_append.mp hy with hy' | hy'
            · exact hg y hy'
            · rw [List.mem_singleton.mp hy']
              obtain ⟨hr', hk'⟩ := insertParts_raw_kind m h rest (mkNode part)
              rw [nodeGood_iff, hr', hk', mkNode_raw]
              refine ⟨rfl, ih (mkNode part) ?_⟩
              rw [mkNode_children]
              simp [goodForest]
      · -- matched child branch
        obtain ⟨hcs, hraw⟩ := extractFirst_eq hE
        cases hrest : rest.isEmpty with
        | true =>
          cases hconf : (mapGet child.handlers m).isSome with
          | true =>
            simp [insertParts, hE, hrest, hconf, RouteNode.children]
            rw [goodForest_eq_all]; exact hg
          | false =>
            simp [insertParts, hE, hrest, hconf,
              RouteNode.withChildren, RouteNode.children]
            rw [goodForest_eq_all]
            intro c hc
            rcases List.mem_append.mp hc with hc' | hc'
            · exact hg c (by rw [hcs]; simp [hc'])
            · rcases List.mem_cons.mp hc' with hc'' | hc''
              · rw [hc'', nodeGood_setHandler]
                exact hg child (by rw [hcs]; simp)
              · exact hg c (by rw [hcs]; simp [hc''])
        | false =>
          simp [insertParts, hE, hrest,
            RouteNode.withChildren, RouteNode.children]
          rw [goodForest_eq_all]
          intro c hc
          rcases List.mem_append.mp hc with hc' | hc'
          · exact hg c (by rw [hcs]; simp [hc'])
          · rcases List.mem_cons.mp hc' with hc'' | hc''
            · rw [hc'']
              have hchild : nodeGood child = true := hg child (by rw [hcs]; simp)
              obtain ⟨hk, hcg⟩ := (nodeGood_iff child).mp hchild
              obtain ⟨hr', hk'⟩ := insertParts_raw_kind m h rest child
              rw [nodeGood_iff, hr', hk', hk]
              exact ⟨rfl, ih child hcg⟩
            · exact hg c (by rw [hcs]; simp [hc''])

/-- A freshly created node (with or without a handler) has sorted (empty)
children. -/
theorem nodeSorted_mkNode (p : String) : nodeSorted (mkNode p) = true := by
  rw [nodeSorted_iff, mkNode_children]
  exact ⟨by simp [litsFirst], by simp [sortedForest]⟩

/-- The literals-first order of a sorted push, split by the pushed node. -/
theorem litsFirst_v8Sort_push (cs : List RouteNode) (nc : RouteNode)
    (hl : litsFirst cs = true) : litsFirst (v8Sort (cs ++ [nc])) = true := by
  obtain ⟨A, B, hAB, hA, hB⟩ := litsFirst_decomp cs hl
  subst hAB
  rw [v8Sort_push A B nc hA hB]
  have hrev : ∀ a ∈ (if 2 ≤ A.length then A.reverse else A), isLitNode a = true := by
    intro a ha
    by_cases h2 : 2 ≤ A.length
    · rw [if_pos h2] at ha
      exact hA a (List.mem_reverse.mp ha)
    · rw [if_neg h2] at ha
      exact hA a ha
  cases hnc : isLitNode nc with
  | true =>
    rw [if_pos rfl]
    have := litsFirst_split (nc :: (if 2 ≤ A.length then A.reverse else A)) B
      (by
        intro a ha
        rcases List.mem_cons.mp ha with h | h
        · rw [h]; exact hnc
        · exact hrev a h) hB
    simpa using this
  | false =>
    rw [if_neg (by simp)]
    have := litsFirst_split (if 2 ≤ A.length then A.reverse else A) (B ++ [nc])
      hrev
      (by
        intro b hb
        rcases List.mem_append.mp hb with h | h
        · exact hB b h
        · rw [List.mem_singleton.mp h]; exact hnc)
    simpa [List.append_assoc] using this

/-- Inserting a route keeps every node's children literals-first and keeps
the whole tree's ordering invariant. -/
theorem insertParts_sorted (m : Method) (h : Nat) :
    ∀ (parts : List String) (node : RouteNode),
      litsFirst node.children = true → sortedForest node.children = true →
      litsFirst ((insertParts m h parts node).2).children = true ∧
      sortedForest ((insertParts m h parts node).2).children = true := by
  intro parts
  induction parts with
  | nil => intro node hl hsf; exact ⟨hl, hsf⟩
  | cons part rest ih =>
    intro node hl hsf
    cases node with
    | mk r k hs cs =>
      simp only [RouteNode.children] at hl hsf
      rw [sortedForest_eq_all] at hsf
      rcases hE : extractFirst (fun c => c.raw = part) cs with _ | ⟨pre, child, post⟩
      · -- fresh child branch
        cases hrest : rest.isEmpty with
        | true =>
          cases hc1 : (isLitNode (mkNode part) &&
              cs.any fun c => c.raw = part && mapHas c.handlers m) with
          | true =>
            simp [insertParts, hE, hrest, hc1, RouteNode.children]
            rw [sortedForest_eq_all]; exact ⟨hl, hsf⟩
          | false =>
            cases hc2 : (isParamNode (mkNode part) &&
                cs.any fun c => mapHas c.handlers m) with
            | true =>
              simp [insertParts, hE, hrest, hc1, hc2, RouteNode.children]
              rw [sortedForest_eq_all]; exact ⟨hl, hsf⟩
            | false =>
              simp [insertParts, hE, hrest, hc1, hc2,
                RouteNode.withChildren, RouteNode.children]
              constructor
              · exact litsFirst_v8Sort_push cs _ hl
              · rw [sortedForest_eq_all]
                apply v8Sort_all
                intro y hy
                rcases List.mem_append.mp hy with hy' | hy'
                · exact hsf y hy'
                · rw [List.mem_singleton.mp hy', nodeSorted_setHandler]
                  exact nodeSorted_mkNode part
        | false =>
          cases hns : isNonSingularNode (mkNode part) with
          | true =>
            simp [insertParts, hE, hrest, hns, RouteNode.children]
            rw [sortedForest_eq_all]; exact ⟨hl, hsf⟩
          | false =>
            simp [insertParts, hE, hrest, hns,
              RouteNode.withChildren, RouteNode.children]
            have hkind := (insertParts_raw_kind m h rest (mkNode part)).2
            constructor
            · have hlit : isLitNode ((insertParts m h rest (mkNode part)).2) =
                  isLitNode (mkNode part) := isLitNode_congr hkind
              exact litsFirst_v8Sort_push cs _ hl
            · rw [sortedForest_eq_all]
              apply v8Sort_all
              intro y hy
              rcases List.mem_append.mp hy with hy' | hy'
              · exact hsf y hy'
              · rw [List.mem_singleton.mp hy']
                rw [nodeSorted_iff]
                refine ih (mkNode part) ?_ ?_ <;> rw [mkNode_children]
                · simp [litsFirst]
                · simp [sortedForest]
      · -- matched child branch
        obtain ⟨hcs, hraw⟩ := extractFirst_eq hE
        cases hrest : rest.isEmpty with
        | true =>
          cases hconf : (mapGet child.handlers m).isSome with
          | true =>
            simp [insertParts, hE, hrest, hconf, RouteNode.children]
            rw [sortedForest_eq_all]; exact ⟨hl, hsf⟩
          | false =>
            simp [insertParts, hE, hrest, hconf,
              RouteNode.withChildren, RouteNode.children]
            constructor
            · rw [hcs] at hl
              exact litsFirst_congr pre child (setHandler child m h) post
                (isLitNode_setHandler child m h) hl
            · rw [sortedForest_eq_all]
              intro c hc
              rcases List.mem_append.mp hc with hc' | hc'
              · exact hsf c (by rw [hcs]; simp [hc'])
              · rcases List.mem_cons.mp hc' with hc'' | hc''
                · rw [hc'', nodeSorted_setHandler]
                  exact hsf child (by rw [hcs]; simp)
                · exact hsf c (by rw [hcs]; simp [hc''])
        | false =>
          simp [insertParts, hE, hrest,
            RouteNode.withChildren, RouteNode.children]
          have hkind := (insertParts_raw_kind m h rest child).2
          have hchild : nodeSorted child = true := hsf child (by rw [hcs]; simp)
          obtain ⟨hcl, hcsf⟩ := (nodeSorted_iff child).mp hchild
          constructor
          · rw [hcs] at hl
            exact litsFirst_congr pre child ((insertParts m h rest child).2) post
              (isLitNode_congr hkind) hl
          · rw [sortedForest_eq_all]
            intro c hc
            rcases List.mem_append.mp hc with hc' | hc'
            · exact hsf c (by rw [hcs]; simp [hc'])
            · rcases List.mem_cons.mp hc' with hc'' | hc''
              · rw [hc'', nodeSorted_iff]
                exact ih child hcl hcsf
              · exact hsf c (by rw [hcs]; simp [hc''])

/-- A segment that parses as singular (or not as a parameter) creates a node
that is not a non-singular param. -/
theorem singularish_mkNode (p : String) (hp : singularish p = true) :
    isNonSingularNode (mkNode p) = false := by
  unfold singularish at hp
  rcases hparse : parseParam p with _ | ⟨name, md⟩
  · simp [mkNode, hparse, isNonSingularNode, RouteNode.kind]
  · rw [hparse] at hp
    simp at hp
    simp [mkNode, hparse, isNonSingularNode, RouteNode.kind, hp]

/-- A freshly created node satisfies the non-singular-leaf property. -/
theorem nodeNonSing_mkNode (p : String) : nodeNonSing (mkNode p) = true := by
  rw [nodeNonSing_iff, mkNode_children]
  exact ⟨fun _ => rfl, by simp [nonSingForest]⟩

/-- Inserting a pattern whose non-final segments are all `singularish` keeps
every non-singular param node of the tree childless. -/
theorem insertParts_nonSing (m : Method) (h : Nat) :
    ∀ (parts : List String) (node : RouteNode),
      okParts parts = true →
      goodForest node.children = true →
      nonSingForest node.children = true →
      nonSingForest ((insertParts m h parts node).2).children = true := by
  intro parts
  induction parts with
  | nil => intro node _ _ hns; exact hns
  | cons part rest ih =>
    intro node hok hg hns
    have hok' : (rest.isEmpty = true ∨ singularish part = true) ∧
        okParts rest = true := by
      rw [okParts] at hok
      simpa using hok
    have hoktail : okParts rest = true := hok'.2
    cases node with
    | mk r k hs cs =>
      simp only [RouteNode.children] at hg hns
      rw [goodForest_eq_all] at hg
      rw [nonSingForest_eq_all] at hns
      rcases hE : extractFirst (fun c => c.raw = part) cs with _ | ⟨pre, child, post⟩
      · -- fresh child branch
        cases hrest : rest.isEmpty with
        | true =>
          cases hc1 : (isLitNode (mkNode part) &&
              cs.any fun c => c.raw = part && mapHas c.handlers m) with
          | true =>
            simp [insertParts, hE, hrest, hc1, RouteNode.children]
            rw [nonSingForest_eq_all]; exact hns
          | false =>
            cases hc2 : (isParamNode (mkNode part) &&
                cs.any fun c => mapHas c.handlers m) with
            | true =>
              simp [insertParts, hE, hrest, hc1, hc2, RouteNode.children]
              rw [nonSingForest_eq_all]; exact hns
            | false =>
              simp [insertParts, hE, hrest, hc1, hc2,
                RouteNode.withChildren, RouteNode.children]
              rw [nonSingForest_eq_all]
              apply v8Sort_all
              intro y hy
              rcases List.mem_append.mp hy with hy' | hy'
              · exact hns y hy'
              · rw [List.mem_singleton.mp hy', nodeNonSing_setHandler]
                exact nodeNonSing_mkNode part
        | false =>
          cases hnsm : isNonSingularNode (mkNode part) with
          | true =>
            simp [insertParts, hE, hrest, hnsm, RouteNode.children]
            rw [nonSingForest_eq_all]; exact hns
          | false =>
            simp [insertParts, hE, hrest, hnsm,
              RouteNode.withChildren, RouteNode.children]
            rw [nonSingForest_eq_all]
            apply v8Sort_all
            intro y hy
            rcases List.mem_append.mp hy with hy' | hy'
            · exact hns y hy'
            · rw [List.mem_singleton.mp hy']
              have hkind := (insertParts_raw_kind m h rest (mkNode part)).2
              rw [nodeNonSing_iff]
              constructor
              · intro hbad
                rw [isNonSingularNode_congr hkind, hnsm] at hbad
                exact absurd hbad (by simp)
              · refine ih (mkNode part) hoktail ?_ ?_ <;> rw [mkNode_children]
                · simp [goodForest]
                · simp [nonSingForest]
      · -- matched child branch
        obtain ⟨hcs, hraw⟩ := extractFirst_eq hE
        cases hrest : rest.isEmpty with
        | true =>
          cases hconf : (mapGet child.handlers m).isSome with
          | true =>
            simp [insertParts, hE, hrest, hconf, RouteNode.children]
            rw [nonSingForest_eq_all]; exact hns
          | false =>
            simp [insertParts, hE, hrest, hconf,
              RouteNode.withChildren, RouteNode.children]
            rw [nonSingForest_eq_all]
            intro c hc
            rcases List.mem_append.mp hc with hc' | hc'
            · exact hns c (by rw [hcs]; simp [hc'])
            · rcases List.mem_cons.mp hc' with hc'' | hc''
              · rw [hc'', nodeNonSing_setHandler]
                exact hns child (by rw [hcs]; simp)
              · exact hns c (by rw [hcs]; simp [hc''])
        | false =>
          simp [insertParts, hE, hrest,
            RouteNode.withChildren, RouteNode.children]
          -- the reused child cannot be a non-singular param: its raw text is
          -- the current (non-final) segment, which is singularish, and its
          -- kind is determined by its raw text
          have hsing : singularish part = true := by
            rcases hok'.1 with hbad | hgood
            · rw [hrest] at hbad; exact absurd hbad (by simp)
            · exact hgood
          have hchildgood : nodeGood child = true := hg child (by rw [hcs]; simp)
          have hchildnon : nodeNonSing child = true := hns child (by rw [hcs]; simp)
          have hck : child.kind = (mkNode part).kind := by
            have := ((nodeGood_iff child).mp hchildgood).1
            rwa [show child.raw = part by simpa using hraw] at this
          have hchildns : isNonSingularNode child = false := by
            rw [isNonSingularNode_congr hck]
            exact singularish_mkNode part hsing
          rw [nonSingForest_eq_all]
          intro c hc
          rcases List.mem_append.mp hc with hc' | hc'
          · exact hns c (by rw [hcs]; simp [hc'])
          · rcases List.mem_cons.mp hc' with hc'' | hc''
            · rw [hc'']
              have hkind := (insertParts_raw_kind m h rest child).2
              rw [nodeNonSing_iff]
              constructor
              · intro hbad
                rw [isNonSingularNode_congr hkind, hchildns] at hbad
                exact absurd hbad (by simp)
              · exact ih child hoktail
                  ((nodeGood_iff child).mp hchildgood).2
                  ((nodeNonSing_iff child).mp hchildnon).2
            · exact hns c (by rw [hcs]; simp [hc''])

/-- A registration never changes the root's raw text or kind. -/
theorem insertRoute_raw_kind (t : RouteNode) (path : String) (m : Method)
    (h : Nat) :
    ((insertRoute t path m h).2).raw = t.raw ∧
    ((insertRoute t path m h).2).kind = t.kind := by
  unfold insertRoute
  by_cases hp : path = "/"
  · rw [if_pos hp]
    by_cases hh : mapHas t.handlers m
    · rw [if_pos hh]
      exact ⟨rfl, rfl⟩
    · rw [if_neg hh]
      exact ⟨rfl, rfl⟩
  · rw [if_neg hp]
    exact insertParts_raw_kind m h (splitPath path) t

/-- The children list is untouched by a root-path registration. -/
theorem setHandler_children (n : RouteNode) (m : Method) (h : Nat) :
    (setHandler n m h).children = n.children := rfl

/-- Trees reachable by any registration sequence are rooted at a root-kind
node, are well-kinded throughout, and keep every node's children
literals-first. -/
theorem reachable_invariant :
    ∀ t, Reachable t →
      t.kind = NodeKind.root ∧ goodForest t.children = true ∧
      litsFirst t.children = true ∧ sortedForest t.children = true := by
  intro t ht
  induction ht with
  | empty =>
    refine ⟨rfl, ?_, ?_, ?_⟩ <;>
      simp [emptyRoot, goodForest, litsFirst, sortedForest, RouteNode.children]
  | step t path m h ht ih =>
    obtain ⟨hk, hg, hl, hsf⟩ := ih
    refine ⟨by rw [(insertRoute_raw_kind t path m h).2]; exact hk, ?_⟩
    unfold insertRoute
    by_cases hp : path = "/"
    · rw [if_pos hp]
      by_cases hh : mapHas t.handlers m
      · rw [if_pos hh]; exact ⟨hg, hl, hsf⟩
      · rw [if_neg hh]
        rw [setHandler_children]
        exact ⟨hg, hl, hsf⟩
    · rw [if_neg hp]
      exact ⟨insertParts_good m h (splitPath path) t hg,
        (insertParts_sorted m h (splitPath path) t hl hsf).1,
        (insertParts_sorted m h (splitPath path) t hl hsf).2⟩

/-- Trees reachable by registration sequences whose patterns keep non-final
segments `singularish` are additionally non-singular-leaf clean. -/
theorem reachableOK_invariant :
    ∀ t, ReachableOK t →
      goodForest t.children = true ∧ nonSingForest t.children = true := by
  intro t ht
  induction ht with
  | empty =>
    constructor <;> simp [emptyRoot, goodForest, nonSingForest, RouteNode.children]
  | step t path m h ht hok ih =>
    obtain ⟨hg, hns⟩ := ih
    unfold insertRoute
    by_cases hp : path = "/"
    · rw [if_pos hp]
      by_cases hh : mapHas t.handlers m
      · rw [if_pos hh]; exact ⟨hg, hns⟩
      · rw [if_neg hh]
        rw [setHandler_children]
        exact ⟨hg, hns⟩
    · rw [if_neg hp]
      exact ⟨insertParts_good m h (splitPath path) t hg,
        insertParts_nonSing m h (splitPath path) t hok hg hns⟩

/-- Only a root-kind node's `matchParts` throws. -/
theorem matchPartsE_ne_none (n : RouteNode) (parts : List String)
    (h : n.kind ≠ NodeKind.root) : matchPartsE n parts ≠ none := by
  cases hk : n.kind with
  | root => exact absurd hk h
  | literal lit => simp [matchPartsE, hk]
  | param name md => simp [matchPartsE, hk]

/-- The descent scan cannot throw over a forest without root-kind nodes. -/
theorem scanChildren_no_throw (m : Method) (sub : List String) :
    ∀ (cs : List RouteNode), (∀ c ∈ cs, c.kind ≠ NodeKind.root) →
      scanChildren m sub cs ≠ none := by
  intro cs
  induction cs with
  | nil => intro _; simp [scanChildren]
  | cons child rest ih =>
    intro hk
    rw [scanChildren]
    have hrest : ∀ c ∈ rest, c.kind ≠ NodeKind.root :=
      fun c hc => hk c (by simp [hc])
    split
    · exact ih hrest
    · rcases hmp : matchPartsE child sub with _ | ⟨_ | r⟩
      · exact absurd hmp (matchPartsE_ne_none child sub (hk child (by simp)))
      · simp only [hmp]
        exact ih hrest
      · simp [hmp]

/-- A successful scan returns one of the scanned children together with its
match result. -/
theorem scanChildren_mem (m : Method) (sub : List String) :
    ∀ (cs : List RouteNode) (c : RouteNode) (r : MatchResult),
      scanChildren m sub cs = some (some (c, r)) →
      c ∈ cs ∧ matchPartsE c sub = some (some r) := by
  intro cs
  induction cs with
  | nil => intro c r hs; simp [scanChildren] at hs
  | cons child rest ih =>
    intro c r hs
    rw [scanChildren] at hs
    split at hs
    · obtain ⟨hmem, hmp⟩ := ih c r hs
      exact ⟨by simp [hmem], hmp⟩
    · rcases hmp : matchPartsE child sub with _ | ⟨_ | r'⟩
      · rw [hmp] at hs; simp at hs
      · rw [hmp] at hs
        obtain ⟨hmem, hmp'⟩ := ih c r hs
        exact ⟨by simp [hmem], hmp'⟩
      · rw [hmp] at hs
        simp at hs
        obtain ⟨hc, hr⟩ := hs
        subst hc; subst hr
        exact ⟨by simp, hmp⟩

/-- On a non-empty segment list every successful local match consumes at
least one segment. -/
theorem matchParts_taken_pos (n : RouteNode) (p : String) (rem : List String)
    (r : MatchResult) (h : matchPartsE n (p :: rem) = some (some r)) :
    1 ≤ r.taken := by
  cases hk : n.kind with
  | root => simp [matchPartsE, hk] at h
  | literal lit =>
    simp only [matchPartsE, hk, Option.some.injEq] at h
    split at h
    · rw [Option.some.injEq] at h
      subst h
      exact Nat.le_refl 1
    · exact absurd h (by simp)
  | param name md =>
    simp only [matchPartsE, hk, Option.some.injEq] at h
    cases md with
    | singular =>
      simp only [matchParamParts] at h
      rw [if_pos (by simp)] at h
      rw [Option.some.injEq] at h
      subst h
      exact Nat.le_refl 1
    | optional =>
      simp only [matchParamParts, Option.some.injEq] at h
      subst h
      simp
    | many =>
      simp only [matchParamParts] at h
      rw [if_pos (by simp)] at h
      rw [Option.some.injEq] at h
      subst h
      simp
    | any =>
      simp only [matchParamParts, Option.some.injEq] at h
      subst h
      simp

/-- The descent loop always terminates regularly when started with fuel at
least the number of remaining segments, over a well-kinded tree: each
successful step consumes at least one segment. -/
theorem walkLoop_total (m : Method) :
    ∀ (fuel : Nat) (cur : RouteNode) (rem : List String)
      (ps : List (String × String)),
      rem.length ≤ fuel → goodForest cur.children = true →
      (walkLoop m fuel cur rem ps).isSome = true := by
  intro fuel
  induction fuel with
  | zero =>
    intro cur rem ps hle hg
    cases rem with
    | nil => simp [walkLoop]
    | cons p r => simp at hle
  | succ fuel ih =>
    intro cur rem ps hle hg
    cases rem with
    | nil => simp [walkLoop]
    | cons p rem' =>
      have hk : ∀ c ∈ cur.children, c.kind ≠ NodeKind.root := by
        intro c hc
        have hng := (goodForest_eq_all _).mp hg c hc
        have hkc := ((nodeGood_iff c).mp hng).1
        rw [hkc]
        exact mkNode_kind_ne_root c.raw
      rcases hscan : scanChildren m (p :: rem') cur.children with _ | ⟨_ | ⟨c, r⟩⟩
      · exact absurd hscan (scanChildren_no_throw m _ _ hk)
      · simp [walkLoop, hscan]
      · obtain ⟨hmem, hmp⟩ := scanChildren_mem m _ _ c r hscan
        have hcg : goodForest c.children = true :=
          ((nodeGood_iff c).mp ((goodForest_eq_all _).mp hg c hmem)).2
        have htaken : 1 ≤ r.taken := matchParts_taken_pos c p rem' r hmp
        have hlen : ((p :: rem').drop r.taken).length ≤ fuel := by
          simp only [List.length_drop, List.length_cons]
          simp only [List.length_cons] at hle
          omega
        simp only [walkLoop, hscan]
        exact ih c _ _ hlen hcg

/-- Over a well-kinded tree, lookup always returns regularly: found route or
no-match. -/
theorem findRouteE_total (t : RouteNode) (m : Method) (path : String)
    (hg : goodForest t.children = true) :
    (findRouteE t m path).isSome = true := by
  unfold findRouteE
  rcases hwalk : walkLoop m (splitPath path).length t (splitPath path) []
    with _ | ⟨cur, rem, ps⟩
  · have := walkLoop_total m (splitPath path).length t (splitPath path) []
      (le_refl _) hg
    rw [hwalk] at this
    simp at this
  · simp only [hwalk]
    split <;> simp

/-- C8.  Lookup is total and never throws: for every tree built by any
sequence of registrations and every method and path, `findRoute` terminates
normally and returns either a found route or no-match — in particular the
`RootNode.matchParts` branch that throws `"unreachable"` is never invoked,
because only the fresh literal/param nodes created by the builder ever appear
as children, and the root is never scanned as a child. -/
theorem c8_lookup_total_never_throws :
    ∀ t, Reachable t → ∀ (m : Method) (path : String),
      (findRouteE t m path).isSome = true :=
  fun t ht m path => findRouteE_total t m path (reachable_invariant t ht).2.1

/-- C8 witness: a concrete reachable tree and a concrete lookup on it. -/
theorem c8_lookup_total_never_throws_witness :
    Reachable tParams ∧ (findRouteE tParams .get "/paramsAny/a/b").isSome = true := by
  have hr : Reachable tParams :=
    Reachable.step _ _ _ _ (Reachable.step _ _ _ _
      (Reachable.step _ _ _ _ Reachable.empty))
  exact ⟨hr, c8_lookup_total_never_throws tParams hr .get "/paramsAny/a/b"⟩

/-- C5 counterexample.  The claim states that no successful registration ever
places segments below a non-singular `ParamNode`, including when a later
pattern textually reuses an existing non-singular param segment in a
non-final position; in fact registering GET `/x/:y?` and then GET `/x/:y?/z`
both succeed (textual reuse skips the modifier-placement check, which guards
only freshly created nodes), leaving the optional param node `:y?` with a
literal child `z`. -/
theorem c5_reuse_breaks_leaf_invariant :
    (insertRoute emptyRoot "/x/:y?" .get 0).1 = none ∧
    (insertRoute (regT emptyRoot "/x/:y?" .get 0) "/x/:y?/z" .get 1).1 = none ∧
    nonSingForest tReuse.children = false ∧
    (tReuse.children.map fun c => (c.raw, c.children.map fun d =>
      (d.raw, d.kind, d.children.map RouteNode.raw))) =
      [("x", [(":y?", NodeKind.param "y" Modifier.optional, ["z"])])] := by
  refine ⟨by decide, by decide, ?_, by decide⟩
  rw [show tReuse.children = [RouteNode.mk "x" (NodeKind.literal "x") []
    [RouteNode.mk ":y?" (NodeKind.param "y" Modifier.optional) [(Method.get, 0)]
      [RouteNode.mk "z" (NodeKind.literal "z") [(Method.get, 1)] []]]] from rfl]
  simp [nonSingForest, isNonSingularNode, RouteNode.kind]

/-- C5 (amended).  After any sequence of registration calls, successful or
failing, in which no pattern contains a segment parsing as a non-singular
parameter in a non-final position, every `ParamNode` in the tree whose
modifier is `optional`, `many`, or `any` has no children.  (The unrestricted
claim fails: the modifier-placement check guards only freshly created nodes,
so a later pattern that textually reuses an existing non-singular param
segment in a non-final position attaches children below it.) -/
theorem c5_nonsingular_params_childless :
    ∀ t, ReachableOK t → nonSingForest t.children = true :=
  fun t ht => (reachableOK_invariant t ht).2

/-- C5 witness: a concrete compliant registration sequence ending in a
non-singular leaf. -/
theorem c5_nonsingular_params_childless_witness :
    ReachableOK tParams ∧ nonSingForest tParams.children = true := by
  have h1 : okParts (splitPath "/paramsOptional/:test?") = true := by decide
  have h2 : okParts (splitPath "/paramsMany/:test+") = true := by decide
  have h3 : okParts (splitPath "/paramsAny/:test*") = true := by decide
  have hr : ReachableOK tParams :=
    ReachableOK.step _ _ _ _ (ReachableOK.step _ _ _ _
      (ReachableOK.step _ _ _ _ ReachableOK.empty h1) h2) h3
  exact ⟨hr, c5_nonsingular_params_childless tParams hr⟩

/-- The non-literal block of a sorted push keeps its insertion order: the
params of the sorted list are the old params followed by the pushed node when
it is a param. -/
theorem paramsOnly_v8Sort_push (l : List RouteNode) (x : RouteNode)
    (hl : litsFirst l = true) :
    paramsOnly (v8Sort (l ++ [x])) = paramsOnly l ++ paramsOnly [x] := by
  obtain ⟨A, B, hAB, hA, hB⟩ := litsFirst_decomp l hl
  subst hAB
  rw [v8Sort_push A B x hA hB]
  have hfA : ∀ (L : List RouteNode), (∀ a ∈ L, isLitNode a = true) →
      paramsOnly L = [] := by
    intro L hL
    unfold paramsOnly
    rw [List.filter_eq_nil_iff]
    intro a ha
    simp [hL a ha]
  have hfB : paramsOnly B = B := by
    unfold paramsOnly
    rw [List.filter_eq_self]
    intro b hb
    simp [hB b hb]
  have hrevA : paramsOnly (if 2 ≤ A.length then A.reverse else A) = [] := by
    apply hfA
    intro a ha
    by_cases h2 : 2 ≤ A.length
    · rw [if_pos h2] at ha
      exact hA a (List.mem_reverse.mp ha)
    · rw [if_neg h2] at ha
      exact hA a ha
  have hApO : paramsOnly A = [] := hfA A hA
  have hPapp : ∀ (l1 l2 : List RouteNode),
      paramsOnly (l1 ++ l2) = paramsOnly l1 ++ paramsOnly l2 := by
    intro l1 l2
    unfold paramsOnly
    simp [List.filter_append]
  have hPcons : ∀ (c : RouteNode) (l : List RouteNode),
      paramsOnly (c :: l) =
        if isLitNode c then paramsOnly l else c :: paramsOnly l := by
    intro c l
    unfold paramsOnly
    by_cases hc : isLitNode c <;> simp [List.filter_cons, hc]
  cases hx : isLitNode x with
  | true =>
    rw [if_pos rfl]
    rw [show (x :: (if 2 ≤ A.length then A.reverse else A) ++ B) =
      x :: ((if 2 ≤ A.length then A.reverse else A) ++ B) from rfl]
    rw [hPcons, if_pos hx, hPapp, hrevA, hfB, hPapp, hApO,
      hPcons, if_pos hx]
    rw [show paramsOnly ([] : List RouteNode) = [] from rfl, hfB]
    simp
  | false =>
    rw [if_neg (by simp)]
    rw [show ((if 2 ≤ A.length then A.reverse else A) ++ B ++ [x]) =
      (if 2 ≤ A.length then A.reverse else A) ++ (B ++ [x]) by simp]
    rw [hPapp, hrevA, hPapp, hfB, hPapp, hApO, hfB,
      hPcons, if_neg (by simp [hx])]
    rw [show paramsOnly ([] : List RouteNode) = [] from rfl]
    simp

/-- C6 counterexample.  The claim states that within the literal group the
children keep their insertion order; in fact after registering GET `/a` and
then GET `/b` the root's children are `[b, a]` — the engine's sort places the
new literal first. -/
theorem c6_literal_order_not_insertion :
    tTwoLits.children.map RouteNode.raw = ["b", "a"] ∧
    tTwoLits.children.map RouteNode.raw ≠ ["a", "b"] := by
  decide

/-- C6 (amended).  After every registration each node's children list
contains all `LiteralNode` children before all `ParamNode` children, and a
push keeps the param group in insertion order (the new node, when a param,
goes after the existing params, which keep their relative order); but the
literal group does **not** keep insertion order — the sort
(`children.sort((a, _) => a instanceof LiteralNode ? -1 : 1)`) uses an
inconsistent comparator, and under V8's TimSort (the engine of Deno, Node and
Cloudflare Workers) a newly pushed literal lands at the front and an existing
block of two or more literals is reversed. -/
theorem c6_children_partition :
    (∀ t, Reachable t →
      litsFirst t.children = true ∧ sortedForest t.children = true) ∧
    (∀ (l : List RouteNode) (x : RouteNode), litsFirst l = true →
      paramsOnly (v8Sort (l ++ [x])) = paramsOnly l ++ paramsOnly [x]) :=
  ⟨fun t ht => ⟨(reachable_invariant t ht).2.2.1, (reachable_invariant t ht).2.2.2⟩,
    paramsOnly_v8Sort_push⟩

/-- C6 witness: the partition holds on a concrete reachable tree, and the
param-order clause evaluated at a concrete literals-first list. -/
theorem c6_children_partition_witness :
    (Reachable tTwoLits ∧ litsFirst tTwoLits.children = true ∧
      sortedForest tTwoLits.children = true) ∧
    (litsFirst (mkNode "lit" :: [mkNode ":p"]) = true ∧
      paramsOnly (v8Sort ((mkNode "lit" :: [mkNode ":p"]) ++ [mkNode ":q"])) =
        paramsOnly (mkNode "lit" :: [mkNode ":p"]) ++ paramsOnly [mkNode ":q"]) := by
  have hr : Reachable tTwoLits :=
    Reachable.step _ _ _ _ (Reachable.step _ _ _ _ Reachable.empty)
  have hlf : litsFirst (mkNode "lit" :: [mkNode ":p"]) = true := by decide
  exact ⟨⟨hr, c6_children_partition.1 tTwoLits hr⟩,
    ⟨hlf, c6_children_partition.2 (mkNode "lit" :: [mkNode ":p"]) (mkNode ":q") hlf⟩⟩
